import Mathlib

/-!
Verification development for the advanced logging and monitoring system
(`index.js`).  The definitions below are a shallow embedding of the source:

* `LevelName` / `levelCode` / `lookupLevel` embed the `LOG_LEVELS` table;
* `RingBuffer` embeds the fixed-capacity circular store with its `push`,
  `toArray` and `query` operations;
* `computeTimerStats` embeds `MetricsCollector.prototype.getTimerStats`;
* `AlertManager` embeds the rule list with independent cooldowns;
* `RotatingFileWriter` together with an explicit file-system model embeds
  the buffered writer with size-triggered rotation;
* `Logger` embeds the event pipeline (level gate, ring buffer, counters,
  alert evaluation, notification emission, file-writer appends) and the
  child-composition forwarding listener.

JavaScript numbers are embedded as `Nat`/`Int`; the two floating-point
computations of the source (`Math.floor(n * 0.95)` style percentile indices
and the megabyte size comparison) are exact at the relevant values and are
embedded as the corresponding exact integer computations, as noted inline.
-/

set_option maxRecDepth 40000

namespace Logging

/-! ### Log levels (`LOG_LEVELS`) -/

/-- The keys of the `LOG_LEVELS` table. -/
inductive LevelName where
  | TRACE | DEBUG | INFO | SUCCESS | WARN | ERROR | FATAL | SILENT
deriving DecidableEq

/-- Numeric severity of each level, from the `LOG_LEVELS` table. -/
def levelCode : LevelName → Nat
  | .TRACE => 0
  | .DEBUG => 10
  | .INFO => 20
  | .SUCCESS => 25
  | .WARN => 30
  | .ERROR => 40
  | .FATAL => 50
  | .SILENT => 100

/-- String rendering of level names (the keys of `LOG_LEVELS`). -/
def levelName : LevelName → String
  | .TRACE => "TRACE"
  | .DEBUG => "DEBUG"
  | .INFO => "INFO"
  | .SUCCESS => "SUCCESS"
  | .WARN => "WARN"
  | .ERROR => "ERROR"
  | .FATAL => "FATAL"
  | .SILENT => "SILENT"

/-- `LOG_LEVELS[s]` for an arbitrary string: `some code` when `s` is a
recognized level name, `none` (JavaScript `undefined`) otherwise. -/
def lookupLevel (s : String) : Option Nat :=
  if s = "TRACE" then some 0
  else if s = "DEBUG" then some 10
  else if s = "INFO" then some 20
  else if s = "SUCCESS" then some 25
  else if s = "WARN" then some 30
  else if s = "ERROR" then some 40
  else if s = "FATAL" then some 50
  else if s = "SILENT" then some 100
  else none

/-! ### String helpers

`strLt` embeds the JavaScript `<` comparison on strings (lexicographic on
code units; the timestamps compared in `query` are plain ASCII).
`strContains` embeds `message.indexOf(pat) !== -1`. -/

/-- Lexicographic strict order on character lists, as JavaScript compares
strings. -/
def charListLt : List Char → List Char → Bool
  | [], [] => false
  | [], _ :: _ => true
  | _ :: _, [] => false
  | a :: as, b :: bs =>
    if a < b then true else if b < a then false else charListLt as bs

/-- JavaScript string `<`. -/
def strLt (a b : String) : Bool := charListLt a.data b.data

/-- Does `p` occur as a contiguous run inside `l`?  (`indexOf !== -1`.) -/
def charListContains : List Char → List Char → Bool
  | [], p => p.isEmpty
  | a :: t, p => List.isPrefixOf p (a :: t) || charListContains t p

/-- JavaScript `s.indexOf(pat) !== -1`: substring containment. -/
def strContains (s pat : String) : Bool := charListContains s.data pat.data

/-! ### Log entries (`buildEntry`)

`pid`/`hostname` are ambient process facts with no algorithmic content and
are omitted; `meta` is an opaque payload.  The `timestamp` is the
`formatTimestamp` rendering of the creation instant, supplied by the caller
of the embedded write (the source obtains it from `new Date()`). -/

structure Entry where
  timestamp : String
  level : LevelName
  context : String
  message : String
  meta : Option String
deriving DecidableEq

/-- `truncateMessage(msg, 4096)`. -/
def truncateMessage (msg : String) (maxLen : Nat) : String :=
  if msg.length > maxLen then msg.take maxLen ++ "…[truncated]" else msg

/-- `buildEntry`: the `context || "app"` default and message truncation of
the source.  `ts` is the rendered creation instant. -/
def buildEntry (ts : String) (level : LevelName) (message : String)
    (meta : Option String) (context : String) : Entry :=
  { timestamp := ts
    level := level
    context := if context = "" then "app" else context
    message := truncateMessage message 4096
    meta := meta }

/-! ### Ring buffer (`RingBuffer`) -/

structure RingBuffer (α : Type u) where
  capacity : Nat
  data : List α
  head : Nat
deriving DecidableEq

namespace RingBuffer

/-- `new RingBuffer(capacity)`. -/
def mkNew (α : Type u) (capacity : Nat) : RingBuffer α :=
  { capacity := capacity, data := [], head := 0 }

/-- `RingBuffer.prototype.push`. -/
def push (r : RingBuffer α) (x : α) : RingBuffer α :=
  if r.data.length < r.capacity then
    { r with data := r.data ++ [x] }
  else
    { r with data := r.data.set r.head x, head := (r.head + 1) % r.capacity }

/-- `RingBuffer.prototype.toArray`:
`slice(head) ++ slice(0, head)` once full, a copy of the data otherwise. -/
def toArray (r : RingBuffer α) : List α :=
  if r.data.length < r.capacity then r.data
  else r.data.drop r.head ++ r.data.take r.head

/-- Push a whole list in order. -/
def pushList (r : RingBuffer α) (l : List α) : RingBuffer α :=
  l.foldl push r

/-- Abstract model of one push: keep at most the `N` newest items. -/
def modelPush (N : Nat) (t : List α) (x : α) : List α :=
  if t.length < N then t ++ [x] else t.tail ++ [x]

/-- Representation invariant tying a concrete buffer state `r` to the
abstract content `t` (the retained items, oldest first). -/
def Inv (N : Nat) (t : List α) (r : RingBuffer α) : Prop :=
  r.capacity = N ∧ r.data.length = t.length ∧ t.length ≤ N ∧
  (t.length < N → r.head = 0) ∧ (t.length = N → r.head < N) ∧
  r.data = t.drop (t.length - r.head) ++ t.take (t.length - r.head)

theorem inv_init (α : Type u) {N : Nat} (hN : 1 ≤ N) :
    Inv N [] (mkNew α N) := by
  refine ⟨rfl, rfl, Nat.zero_le _, fun _ => rfl, fun h => ?_, by simp [mkNew]⟩
  simp at h
  omega

theorem set_append_length (l₁ l₂ : List α) (x : α) :
    (l₁ ++ l₂).set l₁.length x = l₁ ++ l₂.set 0 x := by
  induction l₁ with
  | nil => rfl
  | cons a t ih => simpa [List.set] using ih

theorem set_append_of_length_eq (l₁ l₂ : List α) (n : Nat) (h : n = l₁.length)
    (x : α) : (l₁ ++ l₂).set n x = l₁ ++ l₂.set 0 x := by
  subst h; exact set_append_length l₁ l₂ x

theorem tail_drop_eq (l : List α) (n : Nat) :
    (l.drop n).tail = l.drop (n + 1) := by
  rw [← List.drop_one, List.drop_drop]

theorem inv_push {N : Nat} {t : List α} {r : RingBuffer α}
    (hN : 1 ≤ N) (h : Inv N t r) (x : α) :
    Inv N (modelPush N t x) (r.push x) := by
  obtain ⟨hc, hlen, hle, hz, hf, hdata⟩ := h
  by_cases hlt : t.length < N
  · -- not yet full: the source appends, the model appends
    have hh : r.head = 0 := hz hlt
    have hdata' : r.data = t := by rw [hdata, hh]; simp
    rw [push, if_pos (by rw [hlen, hc]; exact hlt), modelPush, if_pos hlt]
    refine ⟨hc, ?_, ?_, fun _ => hh, fun _ => ?_, ?_⟩
    · simp [hdata']
    · simp
      omega
    · show r.head < N
      omega
    · show r.data ++ [x] = _
      rw [hdata', hh]
      simp
  · -- full: the source overwrites slot `head`, the model drops the oldest
    have hteq : t.length = N := by omega
    have hhead : r.head < N := hf hteq
    obtain ⟨a, tl, rfl⟩ : ∃ a tl, t = a :: tl := by
      cases t with
      | nil => simp at hteq; omega
      | cons a tl => exact ⟨a, tl, rfl⟩
    have htl : tl.length + 1 = N := by simpa using hteq
    rw [push, if_neg (by rw [hlen, hc]; omega), modelPush, if_neg (by omega)]
    simp only [List.tail_cons]
    -- rewrite the stored data after `set`
    have hlenA : r.head = ((a :: tl).drop (N - r.head)).length := by
      simp
      omega
    have hsplit : (a :: tl).take (N - r.head) = a :: tl.take (N - r.head - 1) := by
      obtain ⟨m, hm⟩ : ∃ m, N - r.head = m + 1 := ⟨N - r.head - 1, by omega⟩
      rw [hm, List.take_succ_cons]
      simp
    have hset : r.data.set r.head x
        = (a :: tl).drop (N - r.head) ++ x :: tl.take (N - r.head - 1) := by
      rw [hdata, hteq,
        set_append_of_length_eq _ _ _ hlenA x, hsplit]
      rfl
    have hdrop : (a :: tl).drop (N - r.head) = tl.drop (N - r.head - 1) := by
      obtain ⟨m, hm⟩ : ∃ m, N - r.head = m + 1 := ⟨N - r.head - 1, by omega⟩
      rw [hm, List.drop_succ_cons]
      simp
    have hlen' : (tl ++ [x]).length = N := by simp; omega
    refine ⟨hc, ?_, ?_, fun hcon => ?_, fun _ => ?_, ?_⟩
    · show (r.data.set r.head x).length = (tl ++ [x]).length
      simp [hlen]
    · show (tl ++ [x]).length ≤ N
      omega
    · exact absurd hcon (by simp; omega)
    · show (r.head + 1) % r.capacity < N
      rw [hc]
      exact Nat.mod_lt _ (by omega)
    · show r.data.set r.head x
        = (tl ++ [x]).drop ((tl ++ [x]).length - (r.head + 1) % r.capacity)
          ++ (tl ++ [x]).take ((tl ++ [x]).length - (r.head + 1) % r.capacity)
      rw [hset, hdrop, hc, hlen']
      by_cases hwrap : r.head + 1 < N
      · rw [Nat.mod_eq_of_lt hwrap]
        rw [List.drop_append_eq_append_drop, List.take_append_eq_append_take]
        have h2 : N - (r.head + 1) - tl.length = 0 := by omega
        rw [h2]
        have h4 : N - r.head - 1 = N - (r.head + 1) := by omega
        rw [h4]
        simp [List.append_assoc]
      · have heq : r.head + 1 = N := by omega
        have h0 : N - r.head - 1 = 0 := by omega
        rw [heq, Nat.mod_self, Nat.sub_zero, h0, ← hlen',
          List.drop_length, List.take_length]
        simp

theorem drop_len_append (A B : List α) : (A ++ B).drop A.length = B := by
  induction A with
  | nil => rfl
  | cons a t ih => simpa using ih

theorem take_len_append (A B : List α) : (A ++ B).take A.length = A := by
  induction A with
  | nil => rfl
  | cons a t ih => simpa using ih

theorem rotate_split (A B : List α) (n : Nat) (h : n = A.length) :
    (A ++ B).drop n ++ (A ++ B).take n = B ++ A := by
  subst h
  rw [drop_len_append, take_len_append]

theorem inv_toArray {N : Nat} {t : List α} {r : RingBuffer α}
    (h : Inv N t r) : r.toArray = t := by
  obtain ⟨hc, hlen, hle, hz, hf, hdata⟩ := h
  by_cases hlt : t.length < N
  · have hh : r.head = 0 := hz hlt
    rw [toArray, if_pos (by rw [hlen, hc]; exact hlt)]
    simpa [hh] using hdata
  · have hteq : t.length = N := by omega
    have hhead : r.head < N := hf hteq
    rw [toArray, if_neg (by rw [hlen, hc]; omega), hdata, hteq]
    have hA : r.head = ((t.drop (N - r.head)).length) := by
      simp
      omega
    rw [rotate_split _ _ _ hA]
    exact List.take_append_drop _ t

theorem inv_pushList {N : Nat} {t : List α} {r : RingBuffer α}
    (hN : 1 ≤ N) (h : Inv N t r) (l : List α) :
    Inv N (l.foldl (modelPush N) t) (r.pushList l) := by
  induction l generalizing t r with
  | nil => exact h
  | cons x xs ih => exact ih (inv_push hN h x)

theorem model_foldl {N : Nat} (hN : 1 ≤ N) (l : List α) :
    l.foldl (modelPush N) [] = l.drop (l.length - N) := by
  induction l using List.reverseRecOn with
  | nil => simp
  | append_singleton l x ih =>
    rw [List.foldl_append, List.foldl_cons, List.foldl_nil, ih]
    by_cases hl : l.length < N
    · have h1 : l.length - N = 0 := by omega
      rw [h1, List.drop_zero, modelPush, if_pos hl]
      have h2 : (l ++ [x]).length - N = 0 := by simp; omega
      rw [h2, List.drop_zero]
    · rw [modelPush, if_neg (by simp; omega), tail_drop_eq]
      have h3 : (l ++ [x]).length - N = l.length - N + 1 := by simp; omega
      rw [h3, List.drop_append_eq_append_drop]
      have h4 : l.length - N + 1 - l.length = 0 := by omega
      rw [h4]
      simp

/-- **C1.**  For every capacity `N ≥ 1` and every sequence of `M` pushes
into a fresh ring buffer: when `M ≥ N` the ordered sequence (`toArray`)
has length `N` and equals the last `N` pushed items in push order, and
when `M < N` it equals all `M` pushed items in push order. -/
theorem toArray_eq_lastN (α : Type u) (N : Nat) (hN : 1 ≤ N) (l : List α) :
    (N ≤ l.length →
        ((mkNew α N).pushList l).toArray.length = N ∧
        ((mkNew α N).pushList l).toArray = l.drop (l.length - N)) ∧
    (l.length < N → ((mkNew α N).pushList l).toArray = l) := by
  have hinv := inv_pushList hN (inv_init α hN) l
  have harr := inv_toArray hinv
  rw [model_foldl hN] at harr
  constructor
  · intro hge
    refine ⟨?_, harr⟩
    rw [harr]
    simp
    omega
  · intro hlt
    have h1 : l.length - N = 0 := by omega
    rw [harr, h1, List.drop_zero]

/-- Witness for C1: capacity 3, five pushes, the buffer retains the last
three items in push order (and at two pushes it retains both). -/
theorem toArray_eq_lastN_witness :
    1 ≤ 3 ∧ 3 ≤ 5 ∧
      ((mkNew Nat 3).pushList [10, 20, 30, 40, 50]).toArray = [30, 40, 50] := by
  refine ⟨by decide, by decide, ?_⟩
  have h := ((toArray_eq_lastN Nat 3 (by decide) [10, 20, 30, 40, 50]).1
    (by decide)).2
  rw [h]
  rfl

end RingBuffer

/-! ### Ring-buffer query (`RingBuffer.prototype.query`)

Filter fields are embedded as `Option` values: `none` is an absent field.
The source tests each given field for JavaScript truthiness
(`opts.context && ...`), so a present-but-falsy value (empty string, or
limit `0`) is also ignored; the embedding keeps those truthiness tests. -/

structure QueryOpts where
  level : Option LevelName
  context : Option String
  search : Option String
  since : Option String
  untilTs : Option String  -- source field name: until (a Lean keyword)
  limit : Option Nat
deriving DecidableEq

/-- The `continue` conditions of the query loop, negated: `true` iff the
entry survives every given filter, exactly as the source tests them. -/
def queryKeep (o : QueryOpts) (e : Entry) : Bool :=
  (match o.level with
   | none => true
   | some L => !decide (levelCode e.level < levelCode L))
  && (match o.context with
      | none => true
      | some c => c == "" || e.context == c)
  && (match o.search with
      | none => true
      | some s => s == "" || strContains e.message s)
  && (match o.since with
      | none => true
      | some t => t == "" || !strLt e.timestamp t)
  && (match o.untilTs with
      | none => true
      | some t => t == "" || !strLt t e.timestamp)

/-- `RingBuffer.prototype.query`: linear scan over `toArray`, then the
`opts.limit && results.length > opts.limit` slice keeping the tail. -/
def RingBuffer.query (r : RingBuffer Entry) (o : QueryOpts) : List Entry :=
  let results := r.toArray.filter (queryKeep o)
  match o.limit with
  | none => results
  | some k =>
    if k ≠ 0 ∧ results.length > k then results.drop (results.length - k)
    else results

/-- The spec's matching predicate: the conjunction of level `≥` filter
level, exact context equality, substring containment in the message, and
inclusive lexicographic `since`/`until` bounds on the timestamp. -/
def specMatches (o : QueryOpts) (e : Entry) : Bool :=
  (match o.level with
   | none => true
   | some L => decide (levelCode L ≤ levelCode e.level))
  && (match o.context with
      | none => true
      | some c => e.context == c)
  && (match o.search with
      | none => true
      | some s => strContains e.message s)
  && (match o.since with
      | none => true
      | some t => !strLt e.timestamp t)
  && (match o.untilTs with
      | none => true
      | some t => !strLt t e.timestamp)

/-- The spec's query semantics: the matching entries in original order;
with a limit `K`, the `K` most-recently-matching ones in original order. -/
def specQuery (o : QueryOpts) (l : List Entry) : List Entry :=
  let m := l.filter (specMatches o)
  match o.limit with
  | none => m
  | some k => if m.length > k then m.drop (m.length - k) else m

/-- A one-entry buffer used by the C3 counterexample. -/
def entC3 : Entry :=
  { timestamp := "2024-01-01T00:00:00.000Z", level := .INFO, context := "app",
    message := "hello", meta := none }

def bufC3 : RingBuffer Entry := (RingBuffer.mkNew Entry 5).push entC3

def optsC3 : QueryOpts :=
  { level := none, context := none, search := none, since := none,
    untilTs := none, limit := some 0 }

/-- **C3 counterexample.**  With `limit` explicitly given as `K = 0` and
one matching entry (more than `K` matches), the source returns the entry —
`opts.limit &&` treats the falsy limit `0` as absent — while the claim
demands the `K = 0` most-recently-matching entries, i.e. the empty list.
So query, as claimed for *every* given limit, disagrees with the code. -/
theorem query_limit_zero_refutes_C3 :
    RingBuffer.query bufC3 optsC3 = [entC3]
      ∧ specQuery optsC3 bufC3.toArray = [] := by
  constructor <;> rfl

/-- **C3 (amended).**  For every buffer and every filter whose given
fields are truthy (no empty-string field, no limit `0`) — a falsy field is
ignored by the source — `query` returns exactly the entries of the ordered
sequence satisfying the conjunction of the given filters, in original
order, and a given limit `K` keeps the `K` most-recently-matching entries
in original order. -/
theorem query_eq_specQuery (r : RingBuffer Entry) (o : QueryOpts)
    (hctx : o.context ≠ some "") (hsrch : o.search ≠ some "")
    (hsince : o.since ≠ some "") (huntil : o.untilTs ≠ some "")
    (hlim : o.limit ≠ some 0) :
    RingBuffer.query r o = specQuery o r.toArray := by
  have hfilter : r.toArray.filter (queryKeep o)
      = r.toArray.filter (specMatches o) := by
    apply List.filter_congr
    intro e he
    rw [queryKeep, specMatches]
    have e1 : (match o.level with
        | none => true
        | some L => !decide (levelCode e.level < levelCode L))
        = (match o.level with
           | none => true
           | some L => decide (levelCode L ≤ levelCode e.level)) := by
      cases o.level with
      | none => rfl
      | some L =>
        by_cases h : levelCode e.level < levelCode L
        · simp [h, show ¬(levelCode L ≤ levelCode e.level) from by omega]
        · simp [h, show levelCode L ≤ levelCode e.level from by omega]
    have e2 : (match o.context with
        | none => true
        | some c => c == "" || e.context == c)
        = (match o.context with
           | none => true
           | some c => e.context == c) := by
      cases hC : o.context with
      | none => rfl
      | some c =>
        have hne : c ≠ "" := fun h => hctx (by rw [hC, h])
        simp [hne]
    have e3 : (match o.search with
        | none => true
        | some s => s == "" || strContains e.message s)
        = (match o.search with
           | none => true
           | some s => strContains e.message s) := by
      cases hS : o.search with
      | none => rfl
      | some s =>
        have hne : s ≠ "" := fun h => hsrch (by rw [hS, h])
        simp [hne]
    have e4 : (match o.since with
        | none => true
        | some t => t == "" || !strLt e.timestamp t)
        = (match o.since with
           | none => true
           | some t => !strLt e.timestamp t) := by
      cases hS : o.since with
      | none => rfl
      | some t =>
        have hne : t ≠ "" := fun h => hsince (by rw [hS, h])
        simp [hne]
    have e5 : (match o.untilTs with
        | none => true
        | some t => t == "" || !strLt t e.timestamp)
        = (match o.untilTs with
           | none => true
           | some t => !strLt t e.timestamp) := by
      cases hU : o.untilTs with
      | none => rfl
      | some t =>
        have hne : t ≠ "" := fun h => huntil (by rw [hU, h])
        simp [hne]
    rw [e1, e2, e3, e4, e5]
  rw [RingBuffer.query, specQuery]
  simp only [hfilter]
  cases hK : o.limit with
  | none => rfl
  | some k =>
    have hk0 : k ≠ 0 := fun h => hlim (by rw [hK, h])
    by_cases hlen : (r.toArray.filter (specMatches o)).length > k
    · simp [hk0, hlen]
    · simp [hk0, hlen]

def entW1 : Entry :=
  { timestamp := "2024-01-01T00:00:01.000Z", level := .INFO, context := "app",
    message := "a", meta := none }

def entW2 : Entry :=
  { timestamp := "2024-01-01T00:00:02.000Z", level := .WARN, context := "app",
    message := "b", meta := none }

def entW3 : Entry :=
  { timestamp := "2024-01-01T00:00:03.000Z", level := .ERROR, context := "app",
    message := "c", meta := none }

def bufW : RingBuffer Entry :=
  (RingBuffer.mkNew Entry 10).pushList [entW1, entW2, entW3]

def optsW : QueryOpts :=
  { level := some .WARN, context := none, search := none, since := none,
    untilTs := none, limit := some 1 }

/-- Witness for the amended C3: on a three-entry buffer, a `WARN` level
filter with limit 1 agrees with the spec semantics and keeps the most
recent of the two matching entries. -/
theorem query_eq_specQuery_witness :
    optsW.context ≠ some "" ∧ optsW.limit ≠ some 0 ∧
      RingBuffer.query bufW optsW = specQuery optsW bufW.toArray ∧
      RingBuffer.query bufW optsW = [entW3] :=
  ⟨by decide, by decide,
    query_eq_specQuery bufW optsW (by decide) (by decide) (by decide)
      (by decide) (by decide),
    by decide⟩

/-! ### Metrics (`MetricsCollector.prototype.getTimerStats`)

The histogram of a named timer is a list of elapsed durations in
milliseconds (`Nat`; a fast operation can record 0).  `getTimerStats`
returns `null` when the name has no samples, embedded as the `[]` case.

The percentile indices are computed in the source as
`Math.floor(sorted.length * 0.95)` / `* 0.99` in floats; for every sample
count in range these equal the exact `n * 95 / 100` and `n * 99 / 100`
(the double closest to 0.95 is above 0.95 by less than half an ulp of any
product, and the one closest to 0.99 is below by less than half an ulp, so
the rounded product never crosses an integer), and the embedding uses the
exact integer form.  `Math.round(sum / len)` on naturals is the mean
rounded half-up, embedded exactly as `(2 * sum + n) / (2 * n)`.

`samples.slice().sort((a, b) => a - b)` sorts ascending; an insertion sort
produces the same ascending list of numbers. -/

structure TimerStats where
  count : Nat
  min : Nat
  max : Nat
  avg : Nat
  p95 : Nat
  p99 : Nat
deriving DecidableEq

/-- JavaScript `sorted[idx] || max`: the indexed element, except that an
out-of-range access (`undefined`) and a zero element (falsy) both give
`max`. -/
def pick (sorted : List Nat) (idx : Nat) (mx : Nat) : Nat :=
  match sorted.get? idx with
  | some v => if v = 0 then mx else v
  | none => mx

/-- `MetricsCollector.prototype.getTimerStats` on the sample list of one
name.  The `min`/`max` loops start from `Infinity`/`-Infinity`, so they
are folds over the tail starting at the first sample. -/
def computeTimerStats (samples : List Nat) : Option TimerStats :=
  match samples with
  | [] => none
  | a :: rest =>
    let n := rest.length + 1
    let sum := (a :: rest).foldl (fun x y => x + y) 0
    let mn := rest.foldl (fun m s => if s < m then s else m) a
    let mx := rest.foldl (fun m s => if m < s then s else m) a
    let sorted := (a :: rest).insertionSort (fun x y => x ≤ y)
    some { count := n
           min := mn
           max := mx
           avg := (2 * sum + n) / (2 * n)
           p95 := pick sorted (n * 95 / 100) mx
           p99 := pick sorted (n * 99 / 100) mx }

theorem foldlMin_mem (l : List Nat) :
    ∀ a, l.foldl (fun m s => if s < m then s else m) a ∈ a :: l := by
  induction l with
  | nil => intro a; simp
  | cons s t ih =>
    intro a
    rw [List.foldl_cons]
    by_cases h : s < a
    · rw [if_pos h]
      exact List.mem_cons_of_mem a (ih s)
    · rw [if_neg h]
      rcases List.mem_cons.mp (ih a) with h1 | h1
      · rw [h1]
        exact List.mem_cons_self _ _
      · exact List.mem_cons_of_mem a (List.mem_cons_of_mem s h1)

theorem foldlMin_le (l : List Nat) :
    ∀ a x, x ∈ a :: l → l.foldl (fun m s => if s < m then s else m) a ≤ x := by
  induction l with
  | nil =>
    intro a x hx
    simp at hx
    simp [hx]
  | cons s t ih =>
    intro a x hx
    rw [List.foldl_cons]
    have hacc : (if s < a then s else a) ≤ a ∧ (if s < a then s else a) ≤ s := by
      by_cases h : s < a <;> simp [h] <;> omega
    have hle : t.foldl (fun m s => if s < m then s else m) (if s < a then s else a)
        ≤ (if s < a then s else a) :=
      ih _ _ (List.mem_cons_self _ _)
    rcases List.mem_cons.mp hx with rfl | h1
    · exact le_trans hle hacc.1
    · rcases List.mem_cons.mp h1 with rfl | h2
      · exact le_trans hle hacc.2
      · exact ih _ _ (List.mem_cons_of_mem _ h2)

theorem foldlMax_mem (l : List Nat) :
    ∀ a, l.foldl (fun m s => if m < s then s else m) a ∈ a :: l := by
  induction l with
  | nil => intro a; simp
  | cons s t ih =>
    intro a
    rw [List.foldl_cons]
    by_cases h : a < s
    · rw [if_pos h]
      exact List.mem_cons_of_mem a (ih s)
    · rw [if_neg h]
      rcases List.mem_cons.mp (ih a) with h1 | h1
      · rw [h1]
        exact List.mem_cons_self _ _
      · exact List.mem_cons_of_mem a (List.mem_cons_of_mem s h1)

theorem foldlMax_ge (l : List Nat) :
    ∀ a x, x ∈ a :: l → x ≤ l.foldl (fun m s => if m < s then s else m) a := by
  induction l with
  | nil =>
    intro a x hx
    simp at hx
    simp [hx]
  | cons s t ih =>
    intro a x hx
    rw [List.foldl_cons]
    have hacc : a ≤ (if a < s then s else a) ∧ s ≤ (if a < s then s else a) := by
      by_cases h : a < s <;> simp [h] <;> omega
    have hge : (if a < s then s else a)
        ≤ t.foldl (fun m s => if m < s then s else m) (if a < s then s else a) :=
      ih _ _ (List.mem_cons_self _ _)
    rcases List.mem_cons.mp hx with rfl | h1
    · exact le_trans hacc.1 hge
    · rcases List.mem_cons.mp h1 with rfl | h2
      · exact le_trans hacc.2 hge
      · exact ih _ _ (List.mem_cons_of_mem _ h2)

theorem foldl_add_eq_sum (l : List Nat) : ∀ a, l.foldl (fun x y => x + y) a = a + l.sum := by
  induction l with
  | nil => intro a; simp
  | cons s t ih =>
    intro a
    rw [List.foldl_cons, ih]
    simp
    omega

/-- Rounding half-up of `s / n` via integer arithmetic. -/
theorem nat_round_div (s n : Nat) (hn : 0 < n) :
    (2 * s + n) / (2 * n) = ⌊(s : ℚ) / n + 1 / 2⌋₊ := by
  have h1 : (s : ℚ) / n + 1 / 2 = ((2 * s + n : Nat) : ℚ) / ((2 * n : Nat) : ℚ) := by
    have hnq : (n : ℚ) ≠ 0 := by positivity
    push_cast
    field_simp
    ring
  rw [h1, Nat.floor_div_nat, Nat.floor_natCast]


def samplesC5 : List Nat := List.replicate 20 0 ++ [7]

/-- **C5 counterexample.**  Twenty-one samples, twenty zeros and one 7:
the percentile index ⌊0.95·21⌋ = 19 is inside the sorted array and the
element there is 0, yet the source reports p95 = 7 (the maximum), because
`sorted[i] || max` also falls back on a zero-valued (falsy) element, not
only when the index lands beyond range as the claim states. -/
theorem timerStats_zero_fallback_refutes_C5 :
    (computeTimerStats samplesC5).map TimerStats.p95 = some 7
      ∧ (samplesC5.insertionSort (fun x y => x ≤ y)).get?
          (samplesC5.length * 95 / 100) = some 0
      ∧ samplesC5.length * 95 / 100 < samplesC5.length := by
  refine ⟨?_, ?_, ?_⟩ <;> decide

def l100 : List Nat := (List.range 100).map (fun i => i + 1)

/-- **C5 (amended).**  `getTimerStats` returns `null` on an empty sample
list; on a non-empty one it returns the sample count, the minimum, the
maximum, the mean rounded to the nearest integer (half up), and p95/p99
equal to the element at index ⌊0.95·n⌋ / ⌊0.99·n⌋ of the ascending sort
when that element is nonzero, falling back to the maximum when it is zero
(the index itself never lands beyond range for n ≥ 1; the JavaScript
`sorted[i] || max` also treats a zero element as missing).  On the 100
samples 1..100, p95 is the element at 0-based index 95 and p99 the element
at index 99. -/
theorem computeTimerStats_spec :
    computeTimerStats ([] : List Nat) = none
    ∧ (∀ samples : List Nat, samples ≠ [] →
        ∃ st, computeTimerStats samples = some st
          ∧ st.count = samples.length
          ∧ st.min ∈ samples ∧ (∀ x ∈ samples, st.min ≤ x)
          ∧ st.max ∈ samples ∧ (∀ x ∈ samples, x ≤ st.max)
          ∧ st.avg = ⌊(samples.sum : ℚ) / samples.length + 1 / 2⌋₊
          ∧ List.Sorted (fun x y => x ≤ y)
              (samples.insertionSort (fun x y => x ≤ y))
          ∧ (samples.insertionSort (fun x y => x ≤ y)).Perm samples
          ∧ samples.length * 95 / 100 < samples.length
          ∧ samples.length * 99 / 100 < samples.length
          ∧ (∀ v, (samples.insertionSort (fun x y => x ≤ y)).get?
              (samples.length * 95 / 100) = some v →
                st.p95 = if v = 0 then st.max else v)
          ∧ (∀ v, (samples.insertionSort (fun x y => x ≤ y)).get?
              (samples.length * 99 / 100) = some v →
                st.p99 = if v = 0 then st.max else v))
    ∧ computeTimerStats l100 = some ⟨100, 1, 100, 51, 96, 100⟩
    ∧ (l100.insertionSort (fun x y => x ≤ y)).get? 95 = some 96
    ∧ (l100.insertionSort (fun x y => x ≤ y)).get? 99 = some 100 := by
  refine ⟨rfl, ?_, by decide, by decide, by decide⟩
  intro samples hne
  obtain ⟨a, rest, rfl⟩ := List.exists_cons_of_ne_nil hne
  refine ⟨_, rfl, rfl, foldlMin_mem rest a,
    fun x hx => foldlMin_le rest a x hx,
    foldlMax_mem rest a, fun x hx => foldlMax_ge rest a x hx,
    ?_, List.sorted_insertionSort _ _, List.perm_insertionSort _ _,
    ?_, ?_, ?_, ?_⟩
  · show (2 * ((a :: rest).foldl (fun x y => x + y) 0) + (rest.length + 1))
        / (2 * (rest.length + 1))
        = ⌊((a :: rest).sum : ℚ) / ((a :: rest).length : Nat) + 1 / 2⌋₊
    rw [foldl_add_eq_sum]
    simp only [Nat.zero_add]
    exact nat_round_div _ ((a :: rest).length) (by simp)
  · show (a :: rest).length * 95 / 100 < (a :: rest).length
    rw [Nat.div_lt_iff_lt_mul (by norm_num)]
    simp only [List.length_cons]
    omega
  · show (a :: rest).length * 99 / 100 < (a :: rest).length
    rw [Nat.div_lt_iff_lt_mul (by norm_num)]
    simp only [List.length_cons]
    omega
  · intro v hv
    have hv' : ((a :: rest).insertionSort (fun x y => x ≤ y)).get?
        ((rest.length + 1) * 95 / 100) = some v := hv
    show pick ((a :: rest).insertionSort (fun x y => x ≤ y))
        ((rest.length + 1) * 95 / 100)
        (rest.foldl (fun m s => if m < s then s else m) a) = _
    rw [pick, hv']
  · intro v hv
    have hv' : ((a :: rest).insertionSort (fun x y => x ≤ y)).get?
        ((rest.length + 1) * 99 / 100) = some v := hv
    show pick ((a :: rest).insertionSort (fun x y => x ≤ y))
        ((rest.length + 1) * 99 / 100)
        (rest.foldl (fun m s => if m < s then s else m) a) = _
    rw [pick, hv']

/-- Witness for the amended C5, at the concrete sample list [2,3,4,5,6]. -/
theorem computeTimerStats_spec_witness :
    ((List.range 5).map (fun i => i + 2) ≠ ([] : List Nat))
      ∧ (computeTimerStats ((List.range 5).map (fun i => i + 2))).isSome
          = true := by
  refine ⟨by decide, ?_⟩
  obtain ⟨st, hst, _⟩ :=
    computeTimerStats_spec.2.1 ((List.range 5).map (fun i => i + 2))
      (by decide)
  rw [hst]
  rfl


/-! ### Alert manager (`AlertManager`)

Instants are `Date.now()` values: milliseconds since the epoch, embedded
as `Int` so that the source's `now - lastAt < cooldownMs` comparison is
exact.  The cooldown map is a string-keyed association list; a rule name
absent from it reads as `0` (`self._cooldowns[rule.name] || 0`).  Rule
handlers are external callbacks with no effect on the manager state; the
emitted alert notifications are returned as a list. -/

structure AlertRule where
  name : String
  level : String
  messagePattern : Option String
  cooldownMs : Int
deriving DecidableEq

structure AddRuleOpts where
  name : Option String
  level : Option String
  messagePattern : Option String
  cooldownMs : Option Int
deriving DecidableEq

structure AlertEvent where
  rule : String
  entry : Entry
deriving DecidableEq

structure AlertManager where
  rules : List AlertRule
  cooldowns : List (String × Int)
deriving DecidableEq

namespace AlertManager

def empty : AlertManager := ⟨[], []⟩

/-- `AlertManager.prototype.addRule`: every field defaults through the
JavaScript `||`, so a present-but-falsy value (empty string, `0`) also
falls back to the default. -/
def addRule (m : AlertManager) (opts : AddRuleOpts) : AlertManager :=
  { m with
    rules := m.rules ++ [{
      name := match opts.name with
        | none => "rule_" ++ toString m.rules.length
        | some s => if s = "" then "rule_" ++ toString m.rules.length else s
      level := match opts.level with
        | none => "ERROR"
        | some s => if s = "" then "ERROR" else s
      messagePattern := match opts.messagePattern with
        | none => none
        | some s => if s = "" then none else some s
      cooldownMs := match opts.cooldownMs with
        | none => 60000
        | some c => if c = 0 then 60000 else c }] }

def lookupCd : List (String × Int) → String → Option Int
  | [], _ => none
  | (k, v) :: rest, key => if k = key then some v else lookupCd rest key

def setCd : List (String × Int) → String → Int → List (String × Int)
  | [], key, v => [(key, v)]
  | (k, w) :: rest, key, v =>
    if k = key then (key, v) :: rest else (k, w) :: setCd rest key v

/-- The rule's level gate:
`LOG_LEVELS[entry.level] < LOG_LEVELS[rule.level]` skips the rule.  An
unrecognized rule level reads as `undefined` and the `<` comparison is
then always false, so the gate never skips. -/
def levelSkip (rule : AlertRule) (e : Entry) : Bool :=
  match lookupLevel rule.level with
  | some rl => decide (levelCode e.level < rl)
  | none => false

/-- `rule.messagePattern && entry.message.indexOf(p) === -1` skips. -/
def patternSkip (rule : AlertRule) (e : Entry) : Bool :=
  match rule.messagePattern with
  | none => false
  | some p => if p = "" then false else !strContains e.message p

/-- One iteration of the rule loop in `AlertManager.prototype.evaluate`:
on a non-skipped match the firing instant is recorded first, then the
alert notification is appended (and the handler would run last). -/
def evalStep (e : Entry) (now : Int)
    (acc : List (String × Int) × List AlertEvent) (rule : AlertRule) :
    List (String × Int) × List AlertEvent :=
  if levelSkip rule e then acc
  else if patternSkip rule e then acc
  else
    if now - (lookupCd acc.1 rule.name).getD 0 < rule.cooldownMs then acc
    else (setCd acc.1 rule.name now, acc.2 ++ [⟨rule.name, e⟩])

/-- `AlertManager.prototype.evaluate`: every rule in registration order,
threading the cooldown map. -/
def evaluate (m : AlertManager) (e : Entry) (now : Int) :
    AlertManager × List AlertEvent :=
  let r := m.rules.foldl (evalStep e now) (m.cooldowns, [])
  ({ m with cooldowns := r.1 }, r.2)

theorem lookupCd_setCd_self (l : List (String × Int)) (k : String) (v : Int) :
    lookupCd (setCd l k v) k = some v := by
  induction l with
  | nil => simp [setCd, lookupCd]
  | cons p rest ih =>
    obtain ⟨k1, v1⟩ := p
    rw [setCd]
    by_cases h : k1 = k
    · rw [if_pos h, lookupCd, if_pos rfl]
    · rw [if_neg h, lookupCd, if_neg h]
      exact ih

theorem evaluate_singleton (r : AlertRule) (cds : List (String × Int))
    (e : Entry) (now : Int) :
    evaluate ⟨[r], cds⟩ e now
      = if levelSkip r e then (⟨[r], cds⟩, [])
        else if patternSkip r e then (⟨[r], cds⟩, [])
        else if now - (lookupCd cds r.name).getD 0 < r.cooldownMs then
          (⟨[r], cds⟩, [])
        else (⟨[r], setCd cds r.name now⟩, [⟨r.name, e⟩]) := by
  rw [evaluate]
  simp only [List.foldl_cons, List.foldl_nil, evalStep]
  by_cases h1 : levelSkip r e
  · simp [h1]
  · by_cases h2 : patternSkip r e
    · simp [h1, h2]
    · by_cases h3 : now - (lookupCd cds r.name).getD 0 < r.cooldownMs
      · simp [h1, h2, h3]
      · simp [h1, h2, h3]

end AlertManager


namespace AlertManager

/-- **C6.**  For a rule evaluated at increasing epoch instants:
(A) a notification fires only if the entry passes the rule's level and
pattern gates and at least `cooldownMs` has elapsed since the rule's
recorded last-firing instant (a never-fired rule reads as instant 0, so at
any realistic epoch time `now ≥ cooldownMs` it is eligible); (B) on a
firing the instant is recorded in the cooldown map before the notification
and the handler run, so evaluating any further matching entry less than
`cooldownMs` later — in particular a synchronous log from inside the
handler at the same instant — fires nothing; (C) of two matching entries
less than `cooldownMs` apart the rule fires once, and a third matching
entry after the cooldown has elapsed fires it again. -/
theorem alert_cooldown_spec (r : AlertRule) (cds : List (String × Int))
    (e : Entry) (now : Int) :
    ((evaluate ⟨[r], cds⟩ e now).2 ≠ [] →
      (levelSkip r e = false ∧ patternSkip r e = false
        ∧ r.cooldownMs ≤ now - (lookupCd cds r.name).getD 0)
      ∧ lookupCd (evaluate ⟨[r], cds⟩ e now).1.cooldowns r.name = some now
      ∧ (∀ (e2 : Entry) (now2 : Int), now2 - now < r.cooldownMs →
          (evaluate (evaluate ⟨[r], cds⟩ e now).1 e2 now2).2 = []))
    ∧ (∀ (t0 t1 t2 : Int) (e0 e1 e2 : Entry),
        levelSkip r e0 = false → patternSkip r e0 = false →
        levelSkip r e2 = false → patternSkip r e2 = false →
        r.cooldownMs ≤ t0 → t1 - t0 < r.cooldownMs → r.cooldownMs ≤ t2 - t0 →
        (evaluate ⟨[r], []⟩ e0 t0).2 = [⟨r.name, e0⟩]
        ∧ (evaluate (evaluate ⟨[r], []⟩ e0 t0).1 e1 t1).2 = []
        ∧ (evaluate (evaluate (evaluate ⟨[r], []⟩ e0 t0).1 e1 t1).1
            e2 t2).2 = [⟨r.name, e2⟩]) := by
  constructor
  · intro hfire
    rw [evaluate_singleton] at hfire
    by_cases h1 : levelSkip r e
    · simp [h1] at hfire
    · by_cases h2 : patternSkip r e
      · simp [h1, h2] at hfire
      · by_cases h3 : now - (lookupCd cds r.name).getD 0 < r.cooldownMs
        · simp [h1, h2, h3] at hfire
        · have heval : evaluate ⟨[r], cds⟩ e now
              = (⟨[r], setCd cds r.name now⟩, [⟨r.name, e⟩]) := by
            rw [evaluate_singleton, if_neg h1, if_neg h2, if_neg h3]
          refine ⟨⟨by simpa using h1, by simpa using h2, by omega⟩, ?_, ?_⟩
          · rw [heval]
            exact lookupCd_setCd_self cds r.name now
          · intro e2 now2 hlt
            rw [heval, evaluate_singleton]
            have hlk : (lookupCd (setCd cds r.name now) r.name).getD 0
                = now := by
              rw [lookupCd_setCd_self]
              rfl
            by_cases g1 : levelSkip r e2
            · simp [g1]
            · by_cases g2 : patternSkip r e2
              · simp [g1, g2]
              · rw [if_neg g1, if_neg g2, hlk, if_pos hlt]
  · intro t0 t1 t2 e0 e1 e2 hl0 hp0 hl2 hp2 hcd0 hcd1 hcd2
    have h0 : evaluate ⟨[r], []⟩ e0 t0
        = (⟨[r], [(r.name, t0)]⟩, [⟨r.name, e0⟩]) := by
      rw [evaluate_singleton, if_neg (by simp [hl0]), if_neg (by simp [hp0]),
        if_neg (by simp [lookupCd]; omega)]
      rfl
    have hlk1 : (lookupCd [(r.name, t0)] r.name).getD 0 = t0 := by
      simp [lookupCd]
    have h1e : evaluate ⟨[r], [(r.name, t0)]⟩ e1 t1
        = (⟨[r], [(r.name, t0)]⟩, []) := by
      rw [evaluate_singleton]
      by_cases g1 : levelSkip r e1
      · rw [if_pos g1]
      · by_cases g2 : patternSkip r e1
        · rw [if_neg g1, if_pos g2]
        · rw [if_neg g1, if_neg g2, hlk1, if_pos (by omega)]
    refine ⟨by rw [h0], ?_, ?_⟩
    · rw [h0, h1e]
    · rw [h0, h1e]
      rw [evaluate_singleton, if_neg (by simp [hl2]), if_neg (by simp [hp2]),
        hlk1, if_neg (by omega)]

/-- Witness for C6: a 5-second-cooldown ERROR rule and three ERROR entries
at epoch instants 100000, 100001 and 106000 fire, skip, fire. -/
theorem alert_cooldown_spec_witness :
    (levelSkip ⟨"r", "ERROR", none, 5000⟩ entW3 = false
      ∧ (5000 : Int) ≤ 100000 ∧ (100001 : Int) - 100000 < 5000
      ∧ (5000 : Int) ≤ 106000 - 100000)
    ∧ (evaluate ⟨[⟨"r", "ERROR", none, 5000⟩], []⟩ entW3 100000).2
        = [⟨"r", entW3⟩]
    ∧ (evaluate (evaluate ⟨[⟨"r", "ERROR", none, 5000⟩], []⟩ entW3
        100000).1 entW3 100001).2 = [] := by
  have h := (alert_cooldown_spec ⟨"r", "ERROR", none, 5000⟩ [] entW3 0).2
    100000 100001 106000 entW3 entW3 entW3
    (by decide) (by decide) (by decide) (by decide)
    (by decide) (by decide) (by decide)
  exact ⟨⟨by decide, by decide, by decide, by decide⟩, h.1, h.2.1⟩

def ruleOptsC8 : AddRuleOpts := ⟨some "r", some "BOGUS", none, some 1000⟩

def mgrC8 : AlertManager := AlertManager.empty.addRule ruleOptsC8

def entTraceC8 : Entry :=
  ⟨"2024-01-01T00:00:00.000Z", .TRACE, "app", "boom", none⟩

/-- **C8 counterexample.**  A rule added with the unrecognized level name
"BOGUS" fires for a TRACE entry, which is below ERROR: the level gate
compares against `undefined`, which is never `<`-true, so the gate never
skips.  The rule does not behave as if the default minimum level ERROR had
been specified. -/
theorem invalid_level_rule_fires_trace_refutes_C8 :
    (mgrC8.evaluate entTraceC8 100000).2 = [⟨"r", entTraceC8⟩]
      ∧ levelCode .TRACE < levelCode .ERROR := by
  constructor
  · rfl
  · decide

/-- **C8 (amended).**  An `addRule` call whose level field is absent or
the empty string stores the default ERROR; a call with an unrecognized
non-empty level name does not fail — the rule is appended as given — but
the stored rule then matches entries of *every* level (the level gate
never skips), rather than behaving as if ERROR had been specified. -/
theorem addRule_invalid_level_spec (m : AlertManager) (opts : AddRuleOpts)
    (rule : AlertRule) (e : Entry) :
    ((opts.level = none ∨ opts.level = some "") →
      ∃ rl, (m.addRule opts).rules = m.rules ++ [rl] ∧ rl.level = "ERROR")
    ∧ (lookupLevel rule.level = none → levelSkip rule e = false)
    ∧ (m.addRule opts).rules.length = m.rules.length + 1 := by
  refine ⟨?_, ?_, by simp [addRule]⟩
  · intro h
    refine ⟨_, rfl, ?_⟩
    rcases h with h | h <;> simp [h]
  · intro h
    rw [levelSkip, h]

/-- Witness for the amended C8: the level gate of the "BOGUS"-level rule
passes a TRACE entry. -/
theorem addRule_invalid_level_spec_witness :
    lookupLevel "BOGUS" = none
      ∧ levelSkip ⟨"r", "BOGUS", none, 1000⟩ entTraceC8 = false :=
  ⟨by decide,
    (addRule_invalid_level_spec AlertManager.empty ⟨none, none, none, none⟩
      ⟨"r", "BOGUS", none, 1000⟩ entTraceC8).2.1 (by decide)⟩

/-- **C10.**  `addRule` with an explicit `cooldownMs: 0` stores the
default 60000 ms (`opts.cooldownMs || 60000` treats 0 as absent), and no
`addRule` call can produce a stored rule whose cooldown is 0. -/
theorem addRule_zero_cooldown_spec (m : AlertManager) (opts : AddRuleOpts) :
    (opts.cooldownMs = some 0 →
      ∃ rl, (m.addRule opts).rules = m.rules ++ [rl] ∧ rl.cooldownMs = 60000)
    ∧ ∀ rl ∈ (m.addRule opts).rules, rl ∈ m.rules ∨ rl.cooldownMs ≠ 0 := by
  constructor
  · intro h
    refine ⟨_, rfl, ?_⟩
    simp [h]
  · intro rl hrl
    rw [addRule] at hrl
    simp only [List.mem_append, List.mem_singleton] at hrl
    rcases hrl with h | h
    · exact Or.inl h
    · right
      rw [h]
      cases hc : opts.cooldownMs with
      | none => simp
      | some c =>
        by_cases h0 : c = 0
        · simp [h0]
        · simp [h0]

/-- Witness for C10: adding a rule with cooldown 0 to an empty manager
stores 60000. -/
theorem addRule_zero_cooldown_spec_witness :
    (some (0 : Int) = some 0)
      ∧ ∃ rl, (AlertManager.empty.addRule ⟨none, none, none, some 0⟩).rules
            = AlertManager.empty.rules ++ [rl] ∧ rl.cooldownMs = 60000 :=
  ⟨rfl,
    (addRule_zero_cooldown_spec AlertManager.empty
      ⟨none, none, none, some 0⟩).1 rfl⟩

end AlertManager


/-! ### Rotating file writer (`RotatingFileWriter`)

The relevant slice of the file system is modelled as a map from slot
numbers to file contents: slot 0 is the active file `filePath`, slot
`i ≥ 1` is the backup `filePath + "." + i`; `none` is a missing file.

The source compares `statSync(..).size / (1024*1024) >= maxMB` in floats;
division by the power of two is exact, so the comparison equals
`maxMB * 1048576 ≤ size` on byte counts, and the writer carries that byte
threshold (`maxBytes`).  `fs.appendFile` concatenates; `fs.renameSync`
moves a file over the destination.  `_writing` mirrors the source's flag,
assigned in the constructor and nowhere else. -/

def FS : Type := Nat → Option String

def fsEmpty : FS := fun _ => none

/-- `fs.renameSync(src, dst)` guarded by `fs.existsSync(src)`. -/
def renameFile (fs : FS) (src dst : Nat) : FS :=
  match fs src with
  | none => fs
  | some c => fun j => if j = dst then some c else if j = src then none else fs j

/-- The backup-shifting loop of `rotate`: `for i = n down to 1`, rename
backup `i` to `i + 1` when it exists (highest index first). -/
def shiftBackups (fs : FS) : Nat → FS
  | 0 => fs
  | n + 1 => shiftBackups (renameFile fs (n + 1) (n + 2)) n

/-- `RotatingFileWriter.prototype.rotate`: nothing to do when the active
file is missing; otherwise shift backups `maxBackups-1 .. 1` upward, then
rename the active file to backup 1. -/
def rotate (maxBackups : Nat) (fs : FS) : FS :=
  match fs 0 with
  | none => fs
  | some _ =>
    let fs1 := shiftBackups fs (maxBackups - 1)
    fun j => if j = 1 then fs1 0 else if j = 0 then none else fs1 j

structure RotatingFileWriter where
  maxBytes : Nat
  maxBackups : Nat
  buffer : List String
  writing : Bool
deriving DecidableEq

/-- `getFileSizeMB` numerator: the active file's size in bytes (a missing
file reads as size 0). -/
def sizeBytes (fs : FS) : Nat :=
  match fs 0 with
  | none => 0
  | some c => c.utf8ByteSize

namespace RotatingFileWriter

/-- `RotatingFileWriter.prototype.flush`: no-op on an empty pending
buffer; otherwise drain the whole buffer into one newline-joined chunk
with a trailing newline, rotate first when the observed on-disk size is
at or above the threshold, then append the chunk to the active file. -/
def flush (w : RotatingFileWriter) (fs : FS) : RotatingFileWriter × FS :=
  if w.buffer.isEmpty then (w, fs)
  else
    let chunk := String.intercalate "\n" w.buffer ++ "\n"
    let fs1 := if w.maxBytes ≤ sizeBytes fs then rotate w.maxBackups fs else fs
    ({ w with buffer := [] },
     fun j => if j = 0 then some ((fs1 0).getD "" ++ chunk) else fs1 j)

end RotatingFileWriter

theorem renameFile_at_other (fs : FS) (s d : Nat) (j : Nat)
    (hjs : j ≠ s) (hjd : j ≠ d) : renameFile fs s d j = fs j := by
  rw [renameFile]
  cases hs : fs s with
  | none => rfl
  | some c => simp [hjs, hjd]

theorem renameFile_at_src (fs : FS) (s d : Nat) (hne : s ≠ d) :
    renameFile fs s d s = if (fs s).isSome then none else fs s := by
  rw [renameFile]
  cases hs : fs s with
  | none => simp [hs]
  | some c => simp [hne]

theorem renameFile_at_dst (fs : FS) (s d : Nat) (hne : d ≠ s) :
    renameFile fs s d d = if (fs s).isSome then fs s else fs d := by
  rw [renameFile]
  cases hs : fs s with
  | none => simp [hs]
  | some c => simp [hs]

/-- Pointwise description of the backup-shifting loop with counter `n`:
slot 0 untouched, slot 1 vacated, slots `2..n` receive the previous
occupant of the slot below, slot `n+1` receives slot `n` when occupied,
higher slots untouched. -/
theorem shiftBackups_spec (n : Nat) : ∀ fs : FS,
    (shiftBackups fs n) 0 = fs 0
    ∧ (1 ≤ n → (shiftBackups fs n) 1 = none)
    ∧ (∀ j, 2 ≤ j → j ≤ n → (shiftBackups fs n) j = fs (j - 1))
    ∧ (1 ≤ n → (shiftBackups fs n) (n + 1)
        = if (fs n).isSome then fs n else fs (n + 1))
    ∧ (∀ j, n + 2 ≤ j → (shiftBackups fs n) j = fs j) := by
  induction n with
  | zero =>
    intro fs
    exact ⟨rfl, fun h => absurd h (by omega), fun j h2 h0 => absurd h0 (by omega),
      fun h => absurd h (by omega), fun j _ => rfl⟩
  | succ n ih =>
    intro fs
    rw [shiftBackups]
    obtain ⟨i0, i1, imid, itop, ihigh⟩ := ih (renameFile fs (n + 1) (n + 2))
    have hr0 : renameFile fs (n + 1) (n + 2) 0 = fs 0 :=
      renameFile_at_other fs _ _ 0 (by omega) (by omega)
    have hrsrc : renameFile fs (n + 1) (n + 2) (n + 1) = none := by
      rw [renameFile_at_src fs _ _ (by omega)]
      cases hs : fs (n + 1) with
      | none => simp
      | some c => simp
    have hrdst : renameFile fs (n + 1) (n + 2) (n + 2)
        = if (fs (n + 1)).isSome then fs (n + 1) else fs (n + 2) :=
      renameFile_at_dst fs _ _ (by omega)
    have hrother : ∀ j, j ≠ n + 1 → j ≠ n + 2 →
        renameFile fs (n + 1) (n + 2) j = fs j :=
      fun j h1 h2 => renameFile_at_other fs _ _ j h1 h2
    refine ⟨by rw [i0, hr0], fun _ => ?_, ?_, fun _ => ?_, ?_⟩
    · -- slot 1 is vacated
      by_cases hn : 1 ≤ n
      · exact i1 hn
      · -- n = 0: the loop body is a single rename 1 → 2
        have hn0 : n = 0 := by omega
        subst hn0
        show shiftBackups (renameFile fs 1 2) 0 1 = none
        rw [shiftBackups]
        exact hrsrc
    · -- middle slots 2 ≤ j ≤ n+1
      intro j h2 hj
      by_cases hjn : j ≤ n
      · rw [imid j h2 hjn, hrother (j - 1) (by omega) (by omega)]
      · have hj1 : j = n + 1 := by omega
        subst hj1
        by_cases hn : 1 ≤ n
        · rw [itop hn, hrother n (by omega) (by omega), hrsrc]
          cases hs : fs n with
          | none => simp [hs]
          | some c => simp [hs]
        · omega
    · -- slot n+2 receives slot n+1 when occupied
      by_cases hn : 1 ≤ n
      · rw [ihigh (n + 2) (by omega), hrdst]
      · have hn0 : n = 0 := by omega
        subst hn0
        show shiftBackups (renameFile fs 1 2) 0 2 = _
        rw [shiftBackups]
        exact hrdst
    · -- slots above n+2 untouched
      intro j hj
      rw [ihigh j (by omega), hrother j (by omega) (by omega)]

/-- Pointwise description of one rotation when the active file exists. -/
theorem rotate_spec (m : Nat) (fs : FS) (hm : 1 ≤ m) (a : String)
    (ha : fs 0 = some a) :
    rotate m fs 0 = none
    ∧ rotate m fs 1 = some a
    ∧ (∀ j, 2 ≤ j → j + 1 ≤ m → rotate m fs j = fs (j - 1))
    ∧ (2 ≤ m → rotate m fs m
        = if (fs (m - 1)).isSome then fs (m - 1) else fs m)
    ∧ (∀ j, m + 1 ≤ j → rotate m fs j = fs j) := by
  obtain ⟨s0, s1, smid, stop, shigh⟩ := shiftBackups_spec (m - 1) fs
  have hrw : rotate m fs = fun j =>
      if j = 1 then (shiftBackups fs (m - 1)) 0
      else if j = 0 then none else (shiftBackups fs (m - 1)) j := by
    rw [rotate, ha]
  rw [hrw]
  refine ⟨by simp, by simp [s0, ha], ?_, ?_, ?_⟩
  · intro j h2 hj
    have hj1 : j ≠ 1 := by omega
    have hj0 : j ≠ 0 := by omega
    simp only [hj1, hj0, if_false]
    exact smid j h2 (by omega)
  · intro h2
    have hm1 : m ≠ 1 := by omega
    have hm0 : m ≠ 0 := by omega
    simp only [hm1, hm0, if_false]
    have e : m - 1 + 1 = m := by omega
    rw [e] at stop
    exact stop (by omega)
  · intro j hj
    have hj1 : j ≠ 1 := by omega
    have hj0 : j ≠ 0 := by omega
    simp only [hj1, hj0, if_false]
    exact shigh j (by omega)


/-- Give the active file the content `c` (the writes preceding one
rotation), then rotate; iterated over a list of contents. -/
def setActive (fs : FS) (c : String) : FS :=
  fun j => if j = 0 then some c else fs j

def iterRot (m : Nat) : FS → List String → FS
  | fs, [] => fs
  | fs, c :: rest => iterRot m (rotate m (setActive fs c)) rest

/-- Invariant of the rotation scenario: `rev` holds the rotated-away
contents, most recent first; backup `i ≤ m` holds the `i`-th most recent,
everything else is absent. -/
def RotInv (m : Nat) (rev : List String) (fs : FS) : Prop :=
  fs 0 = none
    ∧ ∀ i, 1 ≤ i → fs i = if i ≤ m then rev.get? (i - 1) else none

theorem rotInv_init (m : Nat) : RotInv m [] fsEmpty := by
  refine ⟨rfl, fun i h1 => ?_⟩
  show (none : Option String)
      = if i ≤ m then ([] : List String).get? (i - 1) else none
  by_cases h : i ≤ m
  · simp [h]
  · simp [h]

theorem rotInv_step (m : Nat) (hm : 1 ≤ m) (rev : List String) (fs : FS)
    (h : RotInv m rev fs) (c : String) :
    RotInv m (c :: rev) (rotate m (setActive fs c)) := by
  obtain ⟨h0, hi⟩ := h
  have ha : setActive fs c 0 = some c := rfl
  have hsA : ∀ i, 1 ≤ i → setActive fs c i = fs i := by
    intro i h1
    rw [setActive]
    simp
    omega
  obtain ⟨r0, r1, rmid, rm, rhigh⟩ := rotate_spec m (setActive fs c) hm c ha
  refine ⟨r0, fun i h1 => ?_⟩
  by_cases him : i ≤ m
  · by_cases hone : i = 1
    · subst hone
      rw [r1, if_pos him]
      rfl
    · have h2 : 2 ≤ i := by omega
      by_cases hlt : i + 1 ≤ m
      · rw [rmid i h2 hlt, hsA (i - 1) (by omega), hi (i - 1) (by omega),
          if_pos (by omega : i - 1 ≤ m), if_pos him]
        obtain ⟨k, hk⟩ : ∃ k, i - 1 = k + 1 := ⟨i - 2, by omega⟩
        rw [hk, List.get?_cons_succ]
        rfl
      · have him' : i = m := by omega
        rw [him']
        rw [rm (by omega), hsA (m - 1) (by omega), hsA m (by omega),
          hi (m - 1) (by omega), hi m (by omega),
          if_pos (by omega : m - 1 ≤ m), if_pos (le_refl m)]
        obtain ⟨k, hk⟩ : ∃ k, m - 1 = k + 1 := ⟨m - 2, by omega⟩
        rw [hk, List.get?_cons_succ]
        have hk2 : k + 1 - 1 = k := by omega
        rw [hk2]
        cases hg : rev.get? k with
        | some v => simp [hg]
        | none =>
          simp [hg]
          have hlen := List.get?_eq_none.mp hg
          omega
  · rw [rhigh i (by omega), hsA i h1, hi i h1, if_neg him, if_neg him]

theorem iterRot_inv (m : Nat) (hm : 1 ≤ m) (cs : List String) :
    ∀ (rev : List String) (fs : FS),
      RotInv m rev fs → RotInv m (cs.reverse ++ rev) (iterRot m fs cs) := by
  induction cs with
  | nil =>
    intro rev fs h
    simpa [iterRot] using h
  | cons c rest ih =>
    intro rev fs h
    have h2 := ih (c :: rev) _ (rotInv_step m hm rev fs h c)
    rw [iterRot]
    simpa [List.append_assoc] using h2

/-- **C7.**  Flushing a non-empty pending buffer drains it entirely into
one chunk (lines joined by newline, trailing newline appended) and
appends the chunk to the active file; exactly one rotation runs first
when and only when the on-disk size observed before appending is at or
above the threshold.  A rotation renames backup `k` to `k + 1` for
`k = maxBackups-1` down to 1 when backup `k` exists (the occupant of the
highest slot is discarded) and then renames the active file to backup 1.
Starting from an empty directory, `maxBackups + 1` rotations (each
rotating away one active content) leave exactly `maxBackups` backups —
backup `i` holding the `i`-th most recent content — and the oldest
content is gone from every slot. -/
theorem rotation_spec (w : RotatingFileWriter) (fs : FS)
    (hbuf : w.buffer ≠ []) :
    ((w.flush fs).1.buffer = []
      ∧ (sizeBytes fs < w.maxBytes →
          (w.flush fs).2 0
            = some ((fs 0).getD "" ++ (String.intercalate "\n" w.buffer ++ "\n"))
          ∧ ∀ j, 1 ≤ j → (w.flush fs).2 j = fs j)
      ∧ (w.maxBytes ≤ sizeBytes fs →
          (w.flush fs).2 0
            = some ((rotate w.maxBackups fs 0).getD ""
                ++ (String.intercalate "\n" w.buffer ++ "\n"))
          ∧ ∀ j, 1 ≤ j → (w.flush fs).2 j = rotate w.maxBackups fs j))
    ∧ (∀ a : String, fs 0 = some a → 1 ≤ w.maxBackups →
        rotate w.maxBackups fs 0 = none
        ∧ rotate w.maxBackups fs 1 = some a
        ∧ (∀ j, 2 ≤ j → j + 1 ≤ w.maxBackups →
            rotate w.maxBackups fs j = fs (j - 1))
        ∧ (2 ≤ w.maxBackups →
            rotate w.maxBackups fs w.maxBackups
              = if (fs (w.maxBackups - 1)).isSome then fs (w.maxBackups - 1)
                else fs w.maxBackups)
        ∧ (∀ j, w.maxBackups + 1 ≤ j → rotate w.maxBackups fs j = fs j))
    ∧ (∀ (m : Nat) (cs : List String), 1 ≤ m → cs.length = m + 1 →
        iterRot m fsEmpty cs 0 = none
        ∧ (∀ i, 1 ≤ i → i ≤ m →
            iterRot m fsEmpty cs i = cs.get? (m + 1 - i))
        ∧ (∀ j, m + 1 ≤ j → iterRot m fsEmpty cs j = none)
        ∧ ((∀ k, 1 ≤ k → cs.get? k ≠ cs.get? 0) →
            ∀ j, iterRot m fsEmpty cs j ≠ cs.get? 0)) := by
  have hbe : w.buffer.isEmpty = false := by
    cases hb : w.buffer with
    | nil => exact absurd hb hbuf
    | cons a t => rfl
  have hflush : w.flush fs = ({ w with buffer := [] },
      fun j => if j = 0 then
        some (((if w.maxBytes ≤ sizeBytes fs then rotate w.maxBackups fs
            else fs) 0).getD ""
          ++ (String.intercalate "\n" w.buffer ++ "\n"))
      else (if w.maxBytes ≤ sizeBytes fs then rotate w.maxBackups fs
        else fs) j) := by
    rw [RotatingFileWriter.flush, hbe]
    simp only [Bool.false_eq_true, if_false]
  refine ⟨?_, fun a ha hm => rotate_spec w.maxBackups fs hm a ha, ?_⟩
  · refine ⟨by rw [hflush], fun hlt => ⟨?_, fun j hj => ?_⟩,
      fun hge => ⟨?_, fun j hj => ?_⟩⟩
    · rw [hflush, if_neg (show ¬ w.maxBytes ≤ sizeBytes fs from by omega)]
      rfl
    · rw [hflush, if_neg (show ¬ w.maxBytes ≤ sizeBytes fs from by omega)]
      simp [show j ≠ 0 from by omega]
    · rw [hflush, if_pos hge]
      rfl
    · rw [hflush, if_pos hge]
      simp [show j ≠ 0 from by omega]
  · intro m cs hm hlen
    have hinv := iterRot_inv m hm cs [] fsEmpty (rotInv_init m)
    rw [List.append_nil] at hinv
    obtain ⟨f0, fi⟩ := hinv
    have hrev : ∀ i, 1 ≤ i → i ≤ m →
        cs.reverse.get? (i - 1) = cs.get? (m + 1 - i) := by
      intro i h1 him
      have hlt : i - 1 < cs.length := by omega
      rw [List.get?_reverse (by omega : i - 1 < cs.length)]
      congr 1
      omega
    have hmain : ∀ i, 1 ≤ i → i ≤ m →
        iterRot m fsEmpty cs i = cs.get? (m + 1 - i) := by
      intro i h1 him
      rw [fi i h1, if_pos him, hrev i h1 him]
    refine ⟨f0, hmain, fun j hj => ?_, fun hdist j => ?_⟩
    · rw [fi j (by omega), if_neg (by omega)]
    · by_cases hj0 : j = 0
      · subst hj0
        rw [f0]
        cases hc : cs.get? 0 with
        | none => exact absurd (List.get?_eq_none.mp hc) (by omega)
        | some v => simp
      · by_cases hjm : j ≤ m
        · rw [hmain j (by omega) hjm]
          exact hdist (m + 1 - j) (by omega)
        · rw [fi j (by omega), if_neg hjm]
          cases hc : cs.get? 0 with
          | none => exact absurd (List.get?_eq_none.mp hc) (by omega)
          | some v => simp

def writerC7 : RotatingFileWriter := ⟨100, 2, ["x"], false⟩

/-- Witness for C7: a flush with one pending line drains it, and with
`maxBackups = 2`, three rotations of contents "a", "b", "c" leave backup 1
holding "c", backup 2 holding "b", and "a" nowhere. -/
theorem rotation_spec_witness :
    (writerC7.buffer ≠ []) ∧ (writerC7.flush fsEmpty).1.buffer = []
      ∧ iterRot 2 fsEmpty ["a", "b", "c"] 1 = some "c"
      ∧ iterRot 2 fsEmpty ["a", "b", "c"] 2 = some "b"
      ∧ iterRot 2 fsEmpty ["a", "b", "c"] 3 = none := by
  have h := rotation_spec writerC7 fsEmpty (by decide)
  have hc := h.2.2 2 ["a", "b", "c"] (by decide) (by decide)
  refine ⟨by decide, h.1.1, ?_, ?_, hc.2.2.1 3 (by decide)⟩
  · rw [hc.2.1 1 (by decide) (by decide)]
    rfl
  · rw [hc.2.1 2 (by decide) (by decide)]
    rfl

def busyWriterC9 : RotatingFileWriter := ⟨100, 3, ["a"], true⟩

/-- **C9 (code bug).**  The source initializes `_writing = false` in the
constructor and never reads or updates it again: `flush` behaves
identically whatever the flag holds, so nothing serializes, defers or
coalesces a flush that begins while another is in flight.  Concretely, a
flush arriving with `_writing = true` (another flush in flight) still
drains the buffer and appends immediately instead of being deferred. -/
theorem busy_flag_never_consulted_C9 :
    (∀ (w : RotatingFileWriter) (fs : FS) (b : Bool),
        (w.flush fs).1.writing = w.writing
        ∧ (RotatingFileWriter.flush { w with writing := b } fs).1
            = { (w.flush fs).1 with writing := b }
        ∧ (RotatingFileWriter.flush { w with writing := b } fs).2
            = (w.flush fs).2)
    ∧ (busyWriterC9.flush fsEmpty).1.buffer = []
    ∧ (busyWriterC9.flush fsEmpty).1.writing = true
    ∧ (busyWriterC9.flush fsEmpty).2 0 = some "a\n" := by
  refine ⟨fun w fs b => ?_, rfl, rfl, rfl⟩
  rw [RotatingFileWriter.flush, RotatingFileWriter.flush]
  cases hb : w.buffer.isEmpty with
  | true => simp
  | false => simp


/-! ### The event pipeline (`Logger`) and child composition

Console rendering is an external collaborator (spec §1) and is not part
of the state; the emission of the "log" notification and of alert events
is recorded as lists.  The three file writers' pending buffers are
recorded as the lists of entries whose renderings were appended
(`entryToText`/`entryToJson` are injective renderings of the entry).
`now` is the `Date.now()` instant of the write and `ts` its
`formatTimestamp` rendering used for the entry's timestamp. -/

structure Logger where
  context : String
  minLevel : Nat
  logToFile : Bool
  ring : RingBuffer Entry
  counts : LevelName → Nat
  alerts : AlertManager
  alertsFired : List AlertEvent
  emittedLogs : List Entry
  textBuf : List Entry
  jsonBuf : List Entry
  errBuf : List Entry

/-- `new Logger(opts)` with the given context, numeric minimum level,
file switch and ring capacity (timers and process hooks are external). -/
def Logger.mkNew (ctx : String) (minLevel : Nat) (logToFile : Bool)
    (ringSize : Nat) : Logger :=
  { context := if ctx = "" then "app" else ctx
    minLevel := minLevel
    logToFile := logToFile
    ring := RingBuffer.mkNew Entry ringSize
    counts := fun _ => 0
    alerts := AlertManager.empty
    alertsFired := []
    emittedLogs := []
    textBuf := []
    jsonBuf := []
    errBuf := [] }

/-- `MetricsCollector.prototype.incrementLevel` (every level name is a
counter key, so the guard always passes). -/
def incCount (c : LevelName → Nat) (lvl : LevelName) : LevelName → Nat :=
  fun l => if l = lvl then c l + 1 else c l

/-- `Logger.prototype._write`: the level gate, then entry construction,
ring push, counter increment, alert evaluation, "log" emission, and the
file-writer appends (errors-only writer for level ≥ ERROR). -/
def Logger.write (s : Logger) (lvl : LevelName) (msg : String)
    (meta : Option String) (now : Int) (ts : String) : Logger :=
  if levelCode lvl < s.minLevel then s
  else
    let e := buildEntry ts lvl msg meta s.context
    let ev := s.alerts.evaluate e now
    let s1 := { s with
      ring := s.ring.push e
      counts := incCount s.counts lvl
      alerts := ev.1
      alertsFired := s.alertsFired ++ ev.2
      emittedLogs := s.emittedLogs ++ [e] }
    if s.logToFile then
      { s1 with
        textBuf := s1.textBuf ++ [e]
        jsonBuf := s1.jsonBuf ++ [e]
        errBuf := if 40 ≤ levelCode lvl then s1.errBuf ++ [e]
          else s1.errBuf }
    else s1

/-- `Logger.prototype.child`: a fresh pipeline with the child's context,
the parent's level inherited, file output disabled, a 500-entry ring. -/
def Logger.child (p : Logger) (childContext : String) : Logger :=
  Logger.mkNew childContext p.minLevel false 500

/-- The parent-side actions of the child's "log" listener: push into the
parent's ring, increment the parent's counter, evaluate the parent's
alert rules, re-emit on the parent, append to the parent's file writers
(errors-only for level ≥ ERROR). -/
def Logger.forwardFromChild (p : Logger) (e : Entry) (now : Int) : Logger :=
  let ev := p.alerts.evaluate e now
  let p1 := { p with
    ring := p.ring.push e
    counts := incCount p.counts e.level
    alerts := ev.1
    alertsFired := p.alertsFired ++ ev.2
    emittedLogs := p.emittedLogs ++ [e] }
  if p.logToFile then
    { p1 with
      textBuf := p1.textBuf ++ [e]
      jsonBuf := p1.jsonBuf ++ [e]
      errBuf := if 40 ≤ levelCode e.level then p1.errBuf ++ [e]
        else p1.errBuf }
  else p1

/-- A leveled write on a child pipeline: the child's own `_write` runs
(its gate, ring, counters, alerts), and its "log" notification listener
synchronously forwards the entry into the parent. -/
def Logger.childWrite (p c : Logger) (lvl : LevelName) (msg : String)
    (meta : Option String) (now : Int) (ts : String) : Logger × Logger :=
  if levelCode lvl < c.minLevel then (p, c)
  else
    (p.forwardFromChild (buildEntry ts lvl msg meta c.context) now,
     c.write lvl msg meta now ts)

def loggerC2 : Logger := Logger.mkNew "app" (levelCode .WARN) true 2000

/-- **C2.**  A write whose level is below the pipeline's minimum level
returns with no side effect at all: the whole state — ring buffer, level
counters, alert cooldowns, emission lists and the file writers' pending
buffers — is unchanged.  With minimum level WARN, `debug("a")` then
`warn("b")` leaves exactly one entry (the WARN one) in the ring buffer,
exactly one counter increment (WARN), exactly one pending line in the
text and structured writers, and nothing in the errors-only writer. -/
theorem write_below_level_no_effect :
    (∀ (s : Logger) (lvl : LevelName) (msg : String) (meta : Option String)
        (now : Int) (ts : String),
      levelCode lvl < s.minLevel → s.write lvl msg meta now ts = s)
    ∧ (∀ (now0 now1 : Int) (ts0 ts1 : String),
        loggerC2.write .DEBUG "a" none now0 ts0 = loggerC2
        ∧ ((loggerC2.write .DEBUG "a" none now0 ts0).write .WARN "b" none
            now1 ts1).ring.toArray = [buildEntry ts1 .WARN "b" none "app"]
        ∧ ((loggerC2.write .DEBUG "a" none now0 ts0).write .WARN "b" none
            now1 ts1).counts .WARN = 1
        ∧ ((loggerC2.write .DEBUG "a" none now0 ts0).write .WARN "b" none
            now1 ts1).counts .DEBUG = 0
        ∧ ((loggerC2.write .DEBUG "a" none now0 ts0).write .WARN "b" none
            now1 ts1).textBuf = [buildEntry ts1 .WARN "b" none "app"]
        ∧ ((loggerC2.write .DEBUG "a" none now0 ts0).write .WARN "b" none
            now1 ts1).jsonBuf = [buildEntry ts1 .WARN "b" none "app"]
        ∧ ((loggerC2.write .DEBUG "a" none now0 ts0).write .WARN "b" none
            now1 ts1).errBuf = []
        ∧ ((loggerC2.write .DEBUG "a" none now0 ts0).write .WARN "b" none
            now1 ts1).emittedLogs = [buildEntry ts1 .WARN "b" none "app"]
        ∧ ((loggerC2.write .DEBUG "a" none now0 ts0).write .WARN "b" none
            now1 ts1).alertsFired = []) := by
  have hdrop : ∀ (s : Logger) (lvl : LevelName) (msg : String)
      (meta : Option String) (now : Int) (ts : String),
      levelCode lvl < s.minLevel → s.write lvl msg meta now ts = s := by
    intro s lvl msg meta now ts h
    rw [Logger.write, if_pos h]
  refine ⟨hdrop, fun now0 now1 ts0 ts1 => ?_⟩
  have h1 : loggerC2.write .DEBUG "a" none now0 ts0 = loggerC2 :=
    hdrop loggerC2 .DEBUG "a" none now0 ts0 (by decide)
  rw [h1]
  exact ⟨rfl, rfl, rfl, rfl, rfl, rfl, rfl, rfl, rfl⟩

/-- Witness for C2: a DEBUG write on a WARN-level pipeline is the
identity on the state. -/
theorem write_below_level_no_effect_witness :
    levelCode .DEBUG < loggerC2.minLevel
      ∧ loggerC2.write .DEBUG "x" none 5 "t" = loggerC2 :=
  ⟨by decide,
    write_below_level_no_effect.1 loggerC2 .DEBUG "x" none 5 "t" (by decide)⟩

/-- **C4.**  An entry produced via a child pipeline's write is forwarded
into the parent: the child inherits the parent's level with file output
disabled and carries the given context; the entry (carrying the child's
context) is pushed into the parent's ring buffer, the parent's counter
for that level is incremented exactly once and no other counter changes,
the parent's alert rules are evaluated against the entry, the
notification is re-emitted on the parent, and the parent's text and
structured writers receive the entry — the errors-only writer only when
the level is ERROR or above. -/
theorem child_forwarding_spec (p : Logger) (ctx : String) (c : Logger)
    (lvl : LevelName) (msg : String) (meta : Option String) (now : Int)
    (ts : String) (hlvl : ¬ levelCode lvl < c.minLevel) :
    (ctx ≠ "" → (p.child ctx).context = ctx)
    ∧ (p.child ctx).minLevel = p.minLevel
    ∧ (p.child ctx).logToFile = false
    ∧ (c.context ≠ "" →
        (buildEntry ts lvl msg meta c.context).context = c.context)
    ∧ (p.childWrite c lvl msg meta now ts).1.ring
        = p.ring.push (buildEntry ts lvl msg meta c.context)
    ∧ (p.childWrite c lvl msg meta now ts).1.counts lvl = p.counts lvl + 1
    ∧ (∀ l, l ≠ lvl →
        (p.childWrite c lvl msg meta now ts).1.counts l = p.counts l)
    ∧ (p.childWrite c lvl msg meta now ts).1.alerts
        = (p.alerts.evaluate (buildEntry ts lvl msg meta c.context) now).1
    ∧ (p.childWrite c lvl msg meta now ts).1.alertsFired
        = p.alertsFired
          ++ (p.alerts.evaluate (buildEntry ts lvl msg meta c.context) now).2
    ∧ (p.childWrite c lvl msg meta now ts).1.emittedLogs
        = p.emittedLogs ++ [buildEntry ts lvl msg meta c.context]
    ∧ (p.logToFile = true →
        (p.childWrite c lvl msg meta now ts).1.textBuf
          = p.textBuf ++ [buildEntry ts lvl msg meta c.context]
        ∧ (p.childWrite c lvl msg meta now ts).1.jsonBuf
          = p.jsonBuf ++ [buildEntry ts lvl msg meta c.context]
        ∧ (p.childWrite c lvl msg meta now ts).1.errBuf
          = p.errBuf ++ (if 40 ≤ levelCode lvl then
              [buildEntry ts lvl msg meta c.context] else [])) := by
  have hcw : (p.childWrite c lvl msg meta now ts).1
      = p.forwardFromChild (buildEntry ts lvl msg meta c.context) now := by
    rw [Logger.childWrite, if_neg hlvl]
  refine ⟨fun h => ?_, rfl, rfl, fun h => ?_, ?_, ?_, ?_, ?_, ?_, ?_, ?_⟩
  · show (if ctx = "" then "app" else ctx) = ctx
    rw [if_neg h]
  · show (if c.context = "" then "app" else c.context) = c.context
    rw [if_neg h]
  · rw [hcw, Logger.forwardFromChild]
    by_cases hf : p.logToFile <;> simp [hf]
  · rw [hcw, Logger.forwardFromChild]
    by_cases hf : p.logToFile <;> simp [hf, incCount, buildEntry]
  · intro l hl
    rw [hcw, Logger.forwardFromChild]
    by_cases hf : p.logToFile <;> simp [hf, incCount, buildEntry, hl]
  · rw [hcw, Logger.forwardFromChild]
    by_cases hf : p.logToFile <;> simp [hf]
  · rw [hcw, Logger.forwardFromChild]
    by_cases hf : p.logToFile <;> simp [hf]
  · rw [hcw, Logger.forwardFromChild]
    by_cases hf : p.logToFile <;> simp [hf]
  · intro hf
    rw [hcw, Logger.forwardFromChild]
    refine ⟨by simp [hf], by simp [hf], ?_⟩
    by_cases h40 : 40 ≤ levelCode lvl <;>
      simp [hf, buildEntry, h40]

def loggerW : Logger := Logger.mkNew "main" 0 true 2000

/-- Witness for C4: an INFO write on a child of a TRACE-level parent
increments the parent's INFO counter exactly once. -/
theorem child_forwarding_spec_witness :
    (¬ levelCode .INFO < (loggerW.child "database").minLevel)
      ∧ (loggerW.childWrite (loggerW.child "database") .INFO "x" none 1000
          "t").1.counts .INFO = loggerW.counts .INFO + 1 :=
  ⟨by decide,
    (child_forwarding_spec loggerW "database" (loggerW.child "database")
      .INFO "x" none 1000 "t" (by decide)).2.2.2.2.2.1⟩


end Logging
